import Mathlib

/-!
Verification development for the route-matching engine and the
change-detection / dispatch coordinator of the ExtensionDemo extension.

Strings are modelled as `List Char`.  The JavaScript string primitives used
by the source (`split`, `includes`, `endsWith`, `substring`, `slice`,
`join`) are embedded as executable Lean functions with the same semantics,
and the source functions (`parseUrlParts`, `matchExact`, `matchPathExact`,
`matchPathPrefix`, `matchRegex`, `findMatchingRoute`, `findHandlerForUrl`
of the site manager; `handleUrlChange` / `processUrlChange` of the content
script) are translated over them.  Regular-expression compilation and the
browser URL constructor are kept abstract: the former as a function
`List Char → Option (List Char → Bool)` (`none` models a compilation
failure), the latter as a function `List Char → Option UrlObj` (`none`
models a `new URL(...)` throw).
-/

/-- JavaScript `s.split(sep)` for a one-character separator: the list of
chunks between occurrences of `sep`; `""` splits to `[""]`. -/
def jsSplit (sep : Char) : List Char → List (List Char)
  | [] => [[]]
  | c :: cs =>
    if c = sep then [] :: jsSplit sep cs
    else
      match jsSplit sep cs with
      | [] => [[c]]
      | h :: t => (c :: h) :: t

/-- JavaScript `parts.join(sep)` for a one-character separator. -/
def joinSep (sep : Char) : List (List Char) → List Char
  | [] => []
  | [x] => x
  | x :: y :: xs => x ++ sep :: joinSep sep (y :: xs)

/-- Split a list at the first occurrence of `c`: `some (before, after)`
when `c` occurs, `none` otherwise. -/
def breakFirst (c : Char) : List Char → Option (List Char × List Char)
  | [] => none
  | d :: ds =>
    if d = c then some ([], ds)
    else (breakFirst c ds).map (fun p => (d :: p.1, p.2))

/-- JavaScript `s.substring(a, b)` restricted to natural-number arguments:
both indices are clamped to the length and swapped when out of order. -/
def jsSubstring (s : List Char) (a b : Nat) : List Char :=
  let a2 := min a s.length
  let b2 := min b s.length
  (s.drop (min a2 b2)).take (max a2 b2 - min a2 b2)

/-- JavaScript `s.startsWith(t)`. -/
def startsWithList : List Char → List Char → Bool
  | _, [] => true
  | [], _ :: _ => false
  | c :: cs, d :: ds => c == d && startsWithList cs ds

/-- JavaScript `s.includes(sub)`: `sub` occurs contiguously in `s`. -/
def jsIncludes (sub : List Char) : List Char → Bool
  | [] => startsWithList [] sub
  | c :: cs => startsWithList (c :: cs) sub || jsIncludes sub cs

/-- JavaScript `s.endsWith(t)`. -/
def jsEndsWith (s t : List Char) : Bool :=
  t.length ≤ s.length && (s.drop (s.length - t.length) == t)

/-- The record returned by `parseUrlParts` in `src/unnamed/part_001`:
path, query (without its `?`), hash (with its `#`) and the re-assembled
full path. -/
structure UrlParts where
  path : List Char
  query : List Char
  hash : List Char
  fullPath : List Char
deriving DecidableEq, Repr

/-- Assemble a `UrlParts` record the way the source does:
`fullPath = path + (query ? "?" + query : "") + hash`. -/
def mkParts (path query hash : List Char) : UrlParts :=
  { path := path, query := query, hash := hash,
    fullPath := path ++ (if query.isEmpty then [] else '?' :: query) ++ hash }

/-- `parseUrlParts` of `src/unnamed/part_001` (lines 118-141), translated
clause by clause: `split("?")` keeps every chunk and the code reads only
chunk 1, `split("#")` likewise; the fallback branch re-splits the whole
input on `#` when no `?` occurred and a `#` is present. -/
def parseUrlParts (url : List Char) : UrlParts :=
  let pathParts := jsSplit '?' url
  let path := pathParts.headI
  let queryAndHash := pathParts.getD 1 []
  let hashParts := jsSplit '#' queryAndHash
  let query := hashParts.headI
  let hash := if 1 < hashParts.length then '#' :: hashParts.getD 1 [] else []
  if pathParts.length = 1 ∧ '#' ∈ url then
    mkParts (jsSplit '#' url).headI [] ('#' :: joinSep '#' (jsSplit '#' url).tail)
  else
    mkParts path query hash

/-- The parser the specification describes (§4.1): the path is the text
before the FIRST `?`, the remainder is everything after it; the remainder
is split at its FIRST `#` into query and fragment; with no `?` present the
input splits at its first `#` into path and fragment.  A reference point
for comparing `parseUrlParts` against the spec's sentence. -/
def specParseFirstSplit (url : List Char) : UrlParts :=
  match breakFirst '?' url with
  | some (path, rest) =>
    match breakFirst '#' rest with
    | some (q, frag) => mkParts path q ('#' :: frag)
    | none => mkParts path rest []
  | none =>
    match breakFirst '#' url with
    | some (path, frag) => mkParts path [] ('#' :: frag)
    | none => mkParts url [] []

/-- Inputs on which the JS chunk-1 reading cannot differ from a
first-occurrence split: at most one `?`, and at most one `#` after it. -/
def simpleSplitInput (url : List Char) : Bool :=
  match breakFirst '?' url with
  | none => true
  | some (_, rest) =>
    (breakFirst '?' rest).isNone &&
      (match breakFirst '#' rest with
       | none => true
       | some (_, rest2) => (breakFirst '#' rest2).isNone)

theorem jsSplit_ne_nil (sep : Char) (s : List Char) : jsSplit sep s ≠ [] := by
  induction s with
  | nil => simp [jsSplit]
  | cons c cs ih =>
    by_cases h : c = sep
    · simp [jsSplit, h]
    · simp only [jsSplit, if_neg h]
      cases hs : jsSplit sep cs with
      | nil => simp
      | cons a as => simp

theorem jsSplit_of_not_mem {sep : Char} {s : List Char} (h : sep ∉ s) :
    jsSplit sep s = [s] := by
  induction s with
  | nil => rfl
  | cons c cs ih =>
    have hc : c ≠ sep := fun hc => h (hc ▸ List.mem_cons_self c cs)
    have hcs : sep ∉ cs := fun hm => h (List.mem_cons_of_mem c hm)
    simp only [jsSplit, if_neg hc, ih hcs]

theorem jsSplit_append_cons {sep : Char} {a : List Char} (b : List Char)
    (h : sep ∉ a) : jsSplit sep (a ++ sep :: b) = a :: jsSplit sep b := by
  induction a with
  | nil => simp [jsSplit]
  | cons c cs ih =>
    have hc : c ≠ sep := fun hc => h (hc ▸ List.mem_cons_self c cs)
    have hcs : sep ∉ cs := fun hm => h (List.mem_cons_of_mem c hm)
    simp only [List.cons_append, jsSplit, if_neg hc, List.append_eq, ih hcs]

theorem breakFirst_eq_none {c : Char} {s : List Char} :
    breakFirst c s = none ↔ c ∉ s := by
  induction s with
  | nil => simp [breakFirst]
  | cons d ds ih =>
    by_cases hd : d = c
    · simp [breakFirst, hd]
    · simp only [breakFirst, if_neg hd, Option.map_eq_none']
      rw [ih, List.mem_cons]
      constructor
      · intro h hm
        rcases hm with hm | hm
        · exact hd hm.symm
        · exact h hm
      · intro h hm
        exact h (Or.inr hm)

theorem breakFirst_eq_some {c : Char} :
    ∀ {s a b : List Char}, breakFirst c s = some (a, b) →
      s = a ++ c :: b ∧ c ∉ a := by
  intro s
  induction s with
  | nil => intro a b h; simp [breakFirst] at h
  | cons d ds ih =>
    intro a b h
    by_cases hd : d = c
    · simp only [breakFirst, if_pos hd, Option.some.injEq, Prod.mk.injEq] at h
      obtain ⟨h1, h2⟩ := h
      subst h1
      subst h2
      simp [hd]
    · simp only [breakFirst, if_neg hd, Option.map_eq_some'] at h
      obtain ⟨⟨a0, b0⟩, h0, heq⟩ := h
      obtain ⟨hs, hna⟩ := ih h0
      obtain ⟨rfl, rfl⟩ : a = d :: a0 ∧ b = b0 := by
        constructor
        · exact (congrArg Prod.fst heq).symm
        · exact (congrArg Prod.snd heq).symm
      refine ⟨by simp [hs], ?_⟩
      intro hm
      rcases List.mem_cons.mp hm with hm | hm
      · exact hd hm.symm
      · exact hna hm

theorem breakFirst_append_cons {c : Char} {a : List Char} (b : List Char)
    (h : c ∉ a) : breakFirst c (a ++ c :: b) = some (a, b) := by
  induction a with
  | nil => simp [breakFirst]
  | cons d ds ih =>
    have hd : d ≠ c := fun hd => h (hd ▸ List.mem_cons_self d ds)
    have hds : c ∉ ds := fun hm => h (List.mem_cons_of_mem d hm)
    simp [breakFirst, if_neg hd, ih hds]

theorem breakFirst_isSome_of_mem {c : Char} {s : List Char} (h : c ∈ s) :
    ∃ a b, breakFirst c s = some (a, b) := by
  cases hb : breakFirst c s with
  | none => exact absurd h (breakFirst_eq_none.mp hb)
  | some p => exact ⟨p.1, p.2, by simp⟩

theorem joinSep_cons_cons (sep d : Char) (h : List Char)
    (t : List (List Char)) :
    joinSep sep ((d :: h) :: t) = d :: joinSep sep (h :: t) := by
  cases t <;> rfl

theorem joinSep_jsSplit (sep : Char) (s : List Char) :
    joinSep sep (jsSplit sep s) = s := by
  induction s with
  | nil => rfl
  | cons c cs ih =>
    by_cases hc : c = sep
    · subst hc
      simp only [jsSplit, if_pos rfl]
      cases hs : jsSplit c cs with
      | nil => exact absurd hs (jsSplit_ne_nil c cs)
      | cons h t =>
        rw [hs] at ih
        show joinSep c ([] :: h :: t) = c :: cs
        simp only [joinSep]
        rw [ih]
        simp
    · simp only [jsSplit, if_neg hc]
      cases hs : jsSplit sep cs with
      | nil => exact absurd hs (jsSplit_ne_nil sep cs)
      | cons h t =>
        rw [hs] at ih
        rw [joinSep_cons_cons, ih]

/-- The explicit `matchType` values of a route rule (`"exact"`,
`"pathExact"`, `"pathPrefix"`, `"regex"` in the source). -/
inductive MatchType
  | exact
  | pathExact
  | pathPrefix
  | regex
deriving DecidableEq, Repr

/-- One route rule of a site entry: `path` pattern, optional explicit
`matchType` (absent = `none`, the source's default behavior), and the
handler, modelled by an opaque numeric id. -/
structure RouteRule where
  path : List Char
  matchType : Option MatchType := none
  handler : Nat
deriving DecidableEq, Repr

/-- One site entry of `siteConfigs`: hostname pattern and ordered routes. -/
structure SiteEntry where
  url : List Char
  routes : List RouteRule
deriving DecidableEq, Repr

/-- The parts of a parsed browser URL that `findHandlerForUrl` reads off
`new URL(url)`: hostname, pathname, search (query with its `?`) and hash
(fragment with its `#`).  The source reads hostname, pathname and hash
only; search is carried so the spec's `path + query + fragment` can be
stated. -/
structure UrlObj where
  hostname : List Char
  pathname : List Char
  search : List Char
  hash : List Char
deriving DecidableEq, Repr

/-- The spec's `normalizedFullPath` of a URL: path + query + fragment. -/
def specNormalizedFullPath (u : UrlObj) : List Char :=
  u.pathname ++ u.search ++ u.hash

/-- `matchAllPages` (part_001 lines 149-151). -/
def matchAllPages (routePath : List Char) : Bool :=
  routePath == ['/']

/-- `matchExact` (part_001 lines 160-162). -/
def matchExact (routePath urlFullPath : List Char) : Bool :=
  routePath == urlFullPath

/-- One trailing `/` stripped, as `matchPathExact` does on both sides. -/
def stripTrailingSlash (s : List Char) : List Char :=
  if jsEndsWith s ['/'] then s.dropLast else s

/-- `matchPathExact` (part_001 lines 171-180). -/
def matchPathExact (routePath : List Char) (urlParts : UrlParts) : Bool :=
  stripTrailingSlash routePath == stripTrailingSlash urlParts.path

/-- The `split("/").filter(Boolean)` segmenting of `matchPathPrefix`. -/
def pathSegments (s : List Char) : List (List Char) :=
  (jsSplit '/' s).filter (fun p => !p.isEmpty)

/-- `matchPathPrefix` (part_001 lines 189-200): segment lists, length
guard, then a positional loop comparing the pattern's segments. -/
def matchPathPrefix (routePath : List Char) (urlParts : UrlParts) : Bool :=
  let routeParts := pathSegments routePath
  let urlPathParts := pathSegments urlParts.path
  if urlPathParts.length < routeParts.length then false
  else (routeParts.zip urlPathParts).all (fun p => p.1 == p.2)

/-- `matchRegex` (part_001 lines 209-218): strip the outermost slash
characters with `substring(1, length - 1)`, compile, test.  `rx` models
`new RegExp`: `none` is a compilation throw, caught and turned into a
non-match. -/
def matchRegex (rx : List Char → Option (List Char → Bool))
    (routePath urlFullPath : List Char) : Bool :=
  match rx (jsSubstring routePath 1 (routePath.length - 1)) with
  | none => false
  | some test => test urlFullPath

/-- The route predicate of `findMatchingRoute` (part_001 lines 88-110):
`matchAllPages` first, then the explicit `matchType` dispatch, defaulting
to `matchPathPrefix`. -/
def routeMatches (rx : List Char → Option (List Char → Bool))
    (fullPath : List Char) (route : RouteRule) : Bool :=
  let urlParts := parseUrlParts fullPath
  if matchAllPages route.path then true
  else if route.matchType = some MatchType.exact then
    matchExact route.path fullPath
  else if route.matchType = some MatchType.pathExact then
    matchPathExact route.path urlParts
  else if route.matchType = some MatchType.regex then
    matchRegex rx route.path fullPath
  else matchPathPrefix route.path urlParts

/-- `findMatchingRoute` (part_001 lines 88-110): first rule whose
predicate holds. -/
def findMatchingRoute (rx : List Char → Option (List Char → Bool))
    (site : SiteEntry) (fullPath : List Char) : Option RouteRule :=
  site.routes.find? (routeMatches rx fullPath)

/-- The hostname disjunction of `findHandlerForUrl` (part_001 lines
50-56): exact equality, `"." + site.url` suffix, or substring. -/
def hostMatches (hostname siteUrl : List Char) : Bool :=
  hostname == siteUrl || jsEndsWith hostname ('.' :: siteUrl) ||
    jsIncludes siteUrl hostname

/-- `findHandlerForUrl` (part_001 lines 39-71) over an already-parsed URL:
`fullPath = pathname + hash`, first site whose hostname matches, then the
first matching route's handler. -/
def findHandlerForUrl (rx : List Char → Option (List Char → Bool))
    (configs : List SiteEntry) (u : UrlObj) : Option Nat :=
  let fullPath := u.pathname ++ u.hash
  match configs.find? (fun site => hostMatches u.hostname site.url) with
  | none => none
  | some site =>
    match findMatchingRoute rx site fullPath with
    | some route => some route.handler
    | none => none

/-- `findHandlerForUrl` over the raw URL string: `parseURL` models the
`new URL(url)` constructor, whose throw on a malformed URL is caught by
the surrounding try/catch and turned into `null`. -/
def findHandlerForUrlStr (rx : List Char → Option (List Char → Bool))
    (parseURL : List Char → Option UrlObj) (configs : List SiteEntry)
    (url : List Char) : Option Nat :=
  match parseURL url with
  | none => none
  | some u => findHandlerForUrl rx configs u

/-- The registry shipped in the source: one site, one `pathPrefix` route
(the `handleAndfleet` handler is the id `0`). -/
def siteConfigs : List SiteEntry :=
  [{ url := "andfleet.cm-iov.com".toList,
     routes := [{ path := "/v1/evhe/#/order/".toList,
                  matchType := some MatchType.pathPrefix,
                  handler := 0 }] }]

/-- A regex environment in which no pattern compiles; the registry above
has no regex route, so any claim not about regexes may use it. -/
def rxNone : List Char → Option (List Char → Bool) := fun _ => none

/-- `CONFIG.URL_PROCESS_DELAY` of `src/unnamed/part_000`: the debounce
delay in milliseconds. -/
def URL_PROCESS_DELAY : Nat := 2000

/-- `CONFIG.URL_REPEAT_THRESHOLD` of `src/unnamed/part_000`: the repeat
suppression threshold in milliseconds. -/
def URL_REPEAT_THRESHOLD : Nat := 2000

/-- The content script's `state` object (part_000 lines 26-32). -/
structure DispatchState where
  lastProcessedUrl : List Char
  lastProcessTime : Nat
  urlChangeTimer : Option Nat
  pendingUrl : Option (List Char)
deriving DecidableEq, Repr

/-- A scheduled `setTimeout` callback: its id and its fire time. -/
structure Timer where
  id : Nat
  fireAt : Nat
deriving DecidableEq, Repr

/-- The event-loop world the content script runs in: the script `state`,
the set of live (scheduled, neither fired nor cancelled) timeouts, a fresh
timer-id counter, the clock, and the observable history — one entry in
`matcherCalls` per `SiteManager.findHandlerForUrl` invocation and one in
`handlerCalls` per handler invocation, each carrying (url, time). -/
structure World where
  st : DispatchState
  timers : List Timer
  nextId : Nat
  now : Nat
  matcherCalls : List (List Char × Nat)
  handlerCalls : List (List Char × Nat)
deriving DecidableEq, Repr

/-- The world at content-script load: the initial `state` literal of
part_000, no timers, clock at 0. -/
def initialWorld : World :=
  { st := { lastProcessedUrl := [], lastProcessTime := 0,
            urlChangeTimer := none, pendingUrl := none },
    timers := [], nextId := 0, now := 0,
    matcherCalls := [], handlerCalls := [] }

/-- `processUrlChange` (part_000 lines 38-83), with `fh` standing for
`SiteManager.findHandlerForUrl`: drop the dispatch when the URL repeats
within the threshold, else record it and invoke the matcher, and the
handler when one is found. -/
def processUrlChange (fh : List Char → Option Nat) (w : World)
    (url : List Char) : World :=
  if url = w.st.lastProcessedUrl ∧
      w.now - w.st.lastProcessTime < URL_REPEAT_THRESHOLD then w
  else
    let w1 := { w with
      st := { w.st with lastProcessedUrl := url, lastProcessTime := w.now },
      matcherCalls := w.matcherCalls ++ [(url, w.now)] }
    match fh url with
    | some _ => { w1 with handlerCalls := w1.handlerCalls ++ [(url, w.now)] }
    | none => w1

/-- `handleUrlChange` (part_000 lines 89-104): cancel any pending timer,
record the pending URL, schedule a fresh timer for `URL_PROCESS_DELAY`
from now and remember its handle. -/
def handleUrlChange (w : World) (url : List Char) : World :=
  let w1 :=
    match w.st.urlChangeTimer with
    | some tid =>
      { w with timers := w.timers.filter (fun t => !(t.id == tid)),
               st := { w.st with urlChangeTimer := none } }
    | none => w
  let w2 := { w1 with st := { w1.st with pendingUrl := some url } }
  { w2 with
    timers := w2.timers ++ [{ id := w2.nextId,
                              fireAt := w2.now + URL_PROCESS_DELAY }],
    nextId := w2.nextId + 1,
    st := { w2.st with urlChangeTimer := some w2.nextId } }

/-- A scheduled timeout of `handleUrlChange` fires: the timer leaves the
live set, the callback runs `processUrlChange(state.pendingUrl)` and then
clears `state.urlChangeTimer`. -/
def fireTimer (fh : List Char → Option Nat) (w : World) (tm : Timer) :
    World :=
  let w1 := { w with timers := w.timers.filter (fun t => !(t.id == tm.id)) }
  let w2 := processUrlChange fh w1 (w1.st.pendingUrl.getD [])
  { w2 with st := { w2.st with urlChangeTimer := none } }

/-- Fire, in order, every live timer due by `upTo`, advancing the clock to
each timer's fire time. -/
def fireDue (fh : List Char → Option Nat) (w : World) (upTo : Nat) :
    World :=
  (w.timers.filter (fun t => decide (t.fireAt ≤ upTo))).foldl
    (fun acc tm => fireTimer fh { acc with now := tm.fireAt } tm) w

/-- Run the event loop over timestamped raw URL signals (each handled by
`handleUrlChange` at its time, after firing every timer due before it),
then fire what is still due by `stop`. -/
def runSignals (fh : List Char → Option Nat) :
    World → List (Nat × List Char) → Nat → World
  | w, [], stop => fireDue fh w stop
  | w, (t, u) :: rest, stop =>
    runSignals fh (handleUrlChange { fireDue fh w t with now := t } u) rest stop

/-- The DispatchState invariant of spec §3 read over the world: at most
one live timer, and every live timer is the one `state.urlChangeTimer`
tracks. -/
def WInv (w : World) : Prop :=
  w.timers.length ≤ 1 ∧ ∀ tm ∈ w.timers, w.st.urlChangeTimer = some tm.id

/-- The C1 failing input: an EXACT rule whose pattern is exactly the
URL's path + query + fragment. -/
def c1Rule : RouteRule :=
  { path := "/p?x=1".toList, matchType := some MatchType.exact, handler := 1 }

/-- A one-site registry holding `c1Rule`. -/
def c1Site : SiteEntry := { url := "h.com".toList, routes := [c1Rule] }

/-- The C1 failing URL: `https://h.com/p?x=1` — pathname `/p`, search
`?x=1`, no fragment. -/
def c1Url : UrlObj :=
  { hostname := "h.com".toList, pathname := "/p".toList,
    search := "?x=1".toList, hash := [] }

/-- C1, code bug, evaluated at the failing input: the rule's pattern
equals the URL's normalizedFullPath (path + query + fragment) and the
rule's matchType is EXACT, yet `findHandlerForUrl` returns no handler —
the code compares the pattern against `pathname + hash` only (part_001
line 47 never includes `urlObj.search`), so the spec's and the code's own
doc-comment's "path, params and hash all equal" contract is violated. -/
theorem c1_exact_ignores_query_eval :
    c1Rule.path = specNormalizedFullPath c1Url ∧
    c1Rule.matchType = some MatchType.exact ∧
    findHandlerForUrl rxNone [c1Site] c1Url = none := by
  refine ⟨rfl, rfl, ?_⟩
  decide

/-- C2, code bug, evaluated at the failing input: a rule with pattern `/`
and an explicitly set matchType EXACT matches the full path `/x` although
the EXACT predicate rejects it — `findMatchingRoute` tests
`matchAllPages(route.path)` before ever looking at `route.matchType`
(part_001 lines 92-94), contradicting the file's own doc comment
(lines 9-12). -/
theorem c2_root_pattern_overrides_matchtype_eval :
    routeMatches rxNone "/x".toList
      { path := "/".toList, matchType := some MatchType.exact,
        handler := 5 } = true ∧
    matchExact "/".toList "/x".toList = false := by
  constructor
  · decide
  · decide

/-- C3 counterexample: on `/a?b?c` the code's parse keeps only the text
between the first and the second `?` as the query (`b`), while a split on
the first `?` would give `b?c`. -/
theorem c3_parse_counterexample :
    parseUrlParts "/a?b?c".toList ≠ specParseFirstSplit "/a?b?c".toList := by
  decide

theorem parseUrlParts_nq_nh {s : List Char} (hnq : '?' ∉ s) (hnh : '#' ∉ s) :
    parseUrlParts s = mkParts s [] [] := by
  have h1 : jsSplit '?' s = [s] := jsSplit_of_not_mem hnq
  simp [parseUrlParts, h1, jsSplit, hnh]

theorem parseUrlParts_nq_hash {p f : List Char} (hnq : '?' ∉ p ++ '#' :: f)
    (hnp : '#' ∉ p) : parseUrlParts (p ++ '#' :: f) = mkParts p [] ('#' :: f) := by
  have h1 : jsSplit '?' (p ++ '#' :: f) = [p ++ '#' :: f] :=
    jsSplit_of_not_mem hnq
  have h2 : jsSplit '#' (p ++ '#' :: f) = p :: jsSplit '#' f :=
    jsSplit_append_cons f hnp
  have hm : '#' ∈ p ++ '#' :: f := by simp
  simp [parseUrlParts, h1, h2, hm, joinSep_jsSplit]

theorem parseUrlParts_q_nh {a b : List Char} (hna : '?' ∉ a) (hnb : '?' ∉ b)
    (hnh : '#' ∉ b) : parseUrlParts (a ++ '?' :: b) = mkParts a b [] := by
  have h1 : jsSplit '?' (a ++ '?' :: b) = [a, b] := by
    rw [jsSplit_append_cons b hna, jsSplit_of_not_mem hnb]
  have h2 : jsSplit '#' b = [b] := jsSplit_of_not_mem hnh
  simp [parseUrlParts, h1, h2]

theorem parseUrlParts_q_hash {a q f : List Char} (hna : '?' ∉ a)
    (hnb : '?' ∉ q ++ '#' :: f) (hnq : '#' ∉ q) (hnf : '#' ∉ f) :
    parseUrlParts (a ++ '?' :: (q ++ '#' :: f)) = mkParts a q ('#' :: f) := by
  have h1 : jsSplit '?' (a ++ '?' :: (q ++ '#' :: f)) = [a, q ++ '#' :: f] := by
    rw [jsSplit_append_cons _ hna, jsSplit_of_not_mem hnb]
  have h2 : jsSplit '#' (q ++ '#' :: f) = [q, f] := by
    rw [jsSplit_append_cons f hnq, jsSplit_of_not_mem hnf]
  simp [parseUrlParts, h1, h2]

/-- C3, amended: on every input with at most one `?`, and at most one `#`
after that `?` when one is present, parse splits on the (then unique) `?`
into path and remainder and on the remainder's (then unique) `#` into
query and fragment, and with no `?` present it splits on the first `#`
into path and fragment with query empty — so parsing `/a#/b` yields path
`/a`, query empty, fragment `#/b`.  (On other inputs the code keeps only
the text between the first and second `?`, and only up to the second `#`,
see the counterexample.) -/
theorem c3_parse_first_split_amended :
    (∀ url : List Char, simpleSplitInput url = true →
        parseUrlParts url = specParseFirstSplit url) ∧
    parseUrlParts "/a#/b".toList = mkParts "/a".toList [] "#/b".toList := by
  constructor
  · intro url h
    cases hq : breakFirst '?' url with
    | none =>
      have hnq : '?' ∉ url := breakFirst_eq_none.mp hq
      by_cases hh : '#' ∈ url
      · obtain ⟨p, f, hpf⟩ := breakFirst_isSome_of_mem hh
        obtain ⟨rfl, hnp⟩ := breakFirst_eq_some hpf
        rw [parseUrlParts_nq_hash hnq hnp]
        simp only [specParseFirstSplit, hq, hpf]
      · rw [parseUrlParts_nq_nh hnq hh]
        simp only [specParseFirstSplit, hq, breakFirst_eq_none.mpr hh]
    | some pr =>
      obtain ⟨a, rest⟩ := pr
      obtain ⟨rfl, hna⟩ := breakFirst_eq_some hq
      rw [simpleSplitInput, hq] at h
      simp only [Bool.and_eq_true, Option.isNone_iff_eq_none] at h
      have hnrest : '?' ∉ rest := breakFirst_eq_none.mp h.1
      cases hh : breakFirst '#' rest with
      | none =>
        have hnh : '#' ∉ rest := breakFirst_eq_none.mp hh
        rw [parseUrlParts_q_nh hna hnrest hnh]
        simp only [specParseFirstSplit, hq, hh]
      | some pr2 =>
        obtain ⟨q2, f2⟩ := pr2
        obtain ⟨hrest, hnq2⟩ := breakFirst_eq_some hh
        rw [hh] at h
        have hnf2 : '#' ∉ f2 := by
          have h2 := h.2
          rw [Option.isNone_iff_eq_none] at h2
          exact breakFirst_eq_none.mp h2
        subst hrest
        rw [parseUrlParts_q_hash hna hnrest hnq2 hnf2]
        simp only [specParseFirstSplit, hq, hh]
  · decide

/-- Applying the C3 theorem at the concrete input `/a?q#f`. -/
theorem c3_parse_first_split_witness :
    parseUrlParts "/a?q#f".toList = specParseFirstSplit "/a?q#f".toList :=
  c3_parse_first_split_amended.1 "/a?q#f".toList (by decide)

theorem zip_all_beq_iff_getD (d : List Char) :
    ∀ (xs ys : List (List Char)), xs.length ≤ ys.length →
      (((xs.zip ys).all fun p => p.1 == p.2) = true ↔
        ∀ i, i < xs.length → xs.getD i d = ys.getD i d) := by
  intro xs
  induction xs with
  | nil => intro ys h; simp
  | cons x xs ih =>
    intro ys h
    cases ys with
    | nil => simp at h
    | cons y ys =>
      simp only [List.zip_cons_cons, List.all_cons, Bool.and_eq_true,
        beq_iff_eq]
      rw [ih ys (by simpa using h)]
      constructor
      · rintro ⟨h0, h1⟩ i hi
        cases i with
        | zero => simpa using h0
        | succ n => simpa using h1 n (by simpa using hi)
      · intro hall
        refine ⟨by simpa using hall 0 (by simp), ?_⟩
        intro i hi
        simpa using hall (i + 1) (by simpa using hi)

/-- C4, confirmed: a PATH_PREFIX comparison holds exactly when the actual
path, split into `/`-delimited non-empty segments, has at least as many
segments as the pattern and agrees with every pattern segment positionally
— in particular `/dashboard` does not match path `/dashboard-extra` but
does match `/dashboard/x`. -/
theorem c4_path_prefix_segmentwise :
    (∀ (routePath : List Char) (urlParts : UrlParts),
        matchPathPrefix routePath urlParts = true ↔
          (pathSegments routePath).length ≤
              (pathSegments urlParts.path).length ∧
            ∀ i, i < (pathSegments routePath).length →
              (pathSegments routePath).getD i [] =
                (pathSegments urlParts.path).getD i []) ∧
    matchPathPrefix "/dashboard".toList
        (parseUrlParts "/dashboard-extra".toList) = false ∧
    matchPathPrefix "/dashboard".toList
        (parseUrlParts "/dashboard/x".toList) = true := by
  refine ⟨?_, by decide, by decide⟩
  intro routePath urlParts
  simp only [matchPathPrefix]
  by_cases hlt : (pathSegments urlParts.path).length <
      (pathSegments routePath).length
  · rw [if_pos hlt]
    simp only [Bool.false_eq_true, false_iff, not_and]
    intro hle
    omega
  · rw [if_neg hlt]
    rw [zip_all_beq_iff_getD [] _ _ (Nat.le_of_not_lt hlt)]
    constructor
    · intro hall
      exact ⟨Nat.le_of_not_lt hlt, hall⟩
    · exact And.right

theorem find?_ignores_false_middle {α : Type} (p : α → Bool) (r : α)
    (hr : p r = false) :
    ∀ l1 l2 : List α, (l1 ++ r :: l2).find? p = (l1 ++ l2).find? p := by
  intro l1 l2
  induction l1 with
  | nil => simp [List.find?_cons, hr]
  | cons a l ih =>
    by_cases ha : p a = true
    · simp [List.find?_cons, ha]
    · simp only [List.cons_append, List.find?_cons,
        Bool.not_eq_true] at ha ⊢
      rw [ha]
      exact ih

theorem routeMatches_regex_fail {rx : List Char → Option (List Char → Bool)}
    {fullPath : List Char} {r : RouteRule}
    (hmr : r.matchType = some MatchType.regex)
    (hrx : rx (jsSubstring r.path 1 (r.path.length - 1)) = none)
    (hroot : r.path ≠ ['/']) : routeMatches rx fullPath r = false := by
  simp only [routeMatches, matchAllPages, matchRegex, hmr, hrx]
  simp [hroot]

/-- C5, confirmed: the matcher is total — when the URL constructor throws
(parse yields `none`) `findHandlerForUrl` returns `none`, and a REGEX rule
whose pattern fails to compile is skipped as non-matching while the rules
before and after it are still searched in order (the rule's pattern is not
the bare `/`, which the ALL check would intercept — the spec's regex
patterns carry the `/^...$/` delimiters). -/
theorem c5_total_and_regex_failure_isolated :
    (∀ (rx : List Char → Option (List Char → Bool))
        (parseURL : List Char → Option UrlObj) (configs : List SiteEntry)
        (url : List Char), parseURL url = none →
        findHandlerForUrlStr rx parseURL configs url = none) ∧
    (∀ (rx : List Char → Option (List Char → Bool)) (fullPath : List Char)
        (pre post : List RouteRule) (r : RouteRule),
        r.matchType = some MatchType.regex →
        rx (jsSubstring r.path 1 (r.path.length - 1)) = none →
        r.path ≠ ['/'] →
        (pre ++ r :: post).find? (routeMatches rx fullPath) =
          (pre ++ post).find? (routeMatches rx fullPath)) := by
  constructor
  · intro rx parseURL configs url h
    simp [findHandlerForUrlStr, h]
  · intro rx fullPath pre post r hmr hrx hroot
    exact find?_ignores_false_middle _ r
      (routeMatches_regex_fail hmr hrx hroot) pre post

/-- Applying the C5 theorem at concrete inputs: a parse failure yields
none, and a failing regex rule in front of a prefix rule leaves that rule
found. -/
theorem c5_total_and_regex_failure_isolated_witness :
    findHandlerForUrlStr rxNone (fun _ => none) siteConfigs "x".toList =
        none ∧
    ([] ++ ({ path := "/^a$/".toList, matchType := some MatchType.regex,
              handler := 3 } : RouteRule) ::
          [({ path := "/b".toList, matchType := none,
              handler := 4 } : RouteRule)]).find?
        (routeMatches rxNone "/b".toList) =
      ([] ++ [({ path := "/b".toList, matchType := none,
                 handler := 4 } : RouteRule)]).find?
        (routeMatches rxNone "/b".toList) :=
  ⟨c5_total_and_regex_failure_isolated.1 rxNone (fun _ => none) siteConfigs
      "x".toList rfl,
   c5_total_and_regex_failure_isolated.2 rxNone "/b".toList [] _ _ rfl rfl
      (by decide)⟩

/-- C6, confirmed: when no registered site entry's hostname pattern
matches the URL's hostname under any of the three strategies,
`findHandlerForUrl` returns none. -/
theorem c6_no_host_match_yields_none :
    ∀ (rx : List Char → Option (List Char → Bool))
      (configs : List SiteEntry) (u : UrlObj),
      (∀ site ∈ configs, hostMatches u.hostname site.url = false) →
      findHandlerForUrl rx configs u = none := by
  intro rx configs u h
  have hf : configs.find? (fun site => hostMatches u.hostname site.url) =
      none := by
    rw [List.find?_eq_none]
    intro s hs
    simp [h s hs]
  simp [findHandlerForUrl, hf]

/-- Applying the C6 theorem to the shipped registry and the unrelated
hostname `example.com`. -/
theorem c6_no_host_match_yields_none_witness :
    findHandlerForUrl rxNone siteConfigs
      { hostname := "example.com".toList, pathname := "/".toList,
        search := [], hash := [] } = none :=
  c6_no_host_match_yields_none rxNone siteConfigs _ (by decide)

theorem startsWithList_refl : ∀ s : List Char, startsWithList s s = true := by
  intro s
  induction s with
  | nil => rfl
  | cons c cs ih => simp [startsWithList, ih]

theorem jsIncludes_of_startsWith {s sub : List Char}
    (h : startsWithList s sub = true) : jsIncludes sub s = true := by
  cases s with
  | nil => simpa [jsIncludes] using h
  | cons c cs => simp [jsIncludes, h]

theorem jsIncludes_refl (s : List Char) : jsIncludes s s = true :=
  jsIncludes_of_startsWith (startsWithList_refl s)

theorem jsIncludes_cons {sub s : List Char} (c : Char)
    (h : jsIncludes sub s = true) : jsIncludes sub (c :: s) = true := by
  simp [jsIncludes, h]

theorem jsIncludes_append_left {sub s : List Char} (a : List Char)
    (h : jsIncludes sub s = true) : jsIncludes sub (a ++ s) = true := by
  induction a with
  | nil => simpa using h
  | cons c cs ih => simpa using jsIncludes_cons c ih

theorem jsEndsWith_exists {s t : List Char} (h : jsEndsWith s t = true) :
    ∃ a, s = a ++ t := by
  rw [jsEndsWith, Bool.and_eq_true, decide_eq_true_eq, beq_iff_eq] at h
  refine ⟨s.take (s.length - t.length), ?_⟩
  conv_lhs => rw [← List.take_append_drop (s.length - t.length) s]
  rw [h.2]

theorem hostMatches_eq_jsIncludes (h m : List Char) :
    hostMatches h m = jsIncludes m h := by
  rw [Bool.eq_iff_iff]
  simp only [hostMatches, Bool.or_eq_true, beq_iff_eq]
  constructor
  · rintro ((rfl | hend) | hinc)
    · exact jsIncludes_refl _
    · obtain ⟨a, rfl⟩ := jsEndsWith_exists hend
      exact jsIncludes_append_left a (jsIncludes_cons '.' (jsIncludes_refl m))
    · exact hinc
  · intro hinc
    exact Or.inr hinc

/-- C10, confirmed: equality with the host pattern and the true-subdomain
suffix test each imply the substring test, so the three-way disjunction of
`hostMatches` collapses to the substring test alone and site selection is
unchanged by dropping the first two clauses. -/
theorem c10_host_disjunction_collapses :
    (∀ h m : List Char, hostMatches h m = jsIncludes m h) ∧
    ∀ (configs : List SiteEntry) (hn : List Char),
      configs.find? (fun s => hostMatches hn s.url) =
        configs.find? (fun s => jsIncludes s.url hn) := by
  constructor
  · exact hostMatches_eq_jsIncludes
  · intro configs hn
    have he : (fun s : SiteEntry => hostMatches hn s.url) =
        (fun s : SiteEntry => jsIncludes s.url hn) :=
      funext fun s => hostMatches_eq_jsIncludes hn s.url
    rw [he]

theorem processUrlChange_st_pendingUrl (fh : List Char → Option Nat)
    (w : World) (url : List Char) :
    (processUrlChange fh w url).st.pendingUrl = w.st.pendingUrl := by
  simp only [processUrlChange]
  split
  · rfl
  · cases fh url <;> rfl

theorem processUrlChange_timers (fh : List Char → Option Nat) (w : World)
    (url : List Char) : (processUrlChange fh w url).timers = w.timers := by
  simp only [processUrlChange]
  split
  · rfl
  · cases fh url <;> rfl

theorem processUrlChange_urlChangeTimer (fh : List Char → Option Nat)
    (w : World) (url : List Char) :
    (processUrlChange fh w url).st.urlChangeTimer =
      w.st.urlChangeTimer := by
  simp only [processUrlChange]
  split
  · rfl
  · cases fh url <;> rfl

/-- C8, confirmed: when the dispatched URL equals `lastProcessedUrl` and
the elapsed time since `lastProcessTime` is strictly below the 2000 ms
repeat threshold, `processUrlChange` leaves the world untouched — no
matcher lookup, no handler call; at or above the threshold it always
records the matcher invocation, and invokes the handler again whenever the
matcher returns one. -/
theorem c8_repeat_suppression :
    (∀ (fh : List Char → Option Nat) (w : World) (url : List Char),
        url = w.st.lastProcessedUrl →
        w.now - w.st.lastProcessTime < URL_REPEAT_THRESHOLD →
        processUrlChange fh w url = w) ∧
    ∀ (fh : List Char → Option Nat) (w : World) (url : List Char) (hid : Nat),
      URL_REPEAT_THRESHOLD ≤ w.now - w.st.lastProcessTime →
      fh url = some hid →
      (processUrlChange fh w url).matcherCalls =
          w.matcherCalls ++ [(url, w.now)] ∧
        (processUrlChange fh w url).handlerCalls =
          w.handlerCalls ++ [(url, w.now)] := by
  constructor
  · intro fh w url h1 h2
    simp only [processUrlChange]
    rw [if_pos ⟨h1, h2⟩]
  · intro fh w url hid h1 h2
    simp only [processUrlChange]
    rw [if_neg fun hc => absurd hc.2 (by omega), h2]
    exact ⟨rfl, rfl⟩

/-- A world in which the URL `u` was just processed 500 ms ago. -/
def c8RecentWorld : World :=
  { st := { lastProcessedUrl := ['u'], lastProcessTime := 1000,
            urlChangeTimer := none, pendingUrl := some ['u'] },
    timers := [], nextId := 1, now := 1500,
    matcherCalls := [(['u'], 1000)], handlerCalls := [(['u'], 1000)] }

/-- The same world 3000 ms after the first processing of `u`. -/
def c8LaterWorld : World :=
  { c8RecentWorld with now := 4000 }

/-- Applying the C8 theorem at 500 ms (suppressed) and at 3000 ms (handler
fires a second time). -/
theorem c8_repeat_suppression_witness :
    processUrlChange (fun _ => some 0) c8RecentWorld ['u'] = c8RecentWorld ∧
    (processUrlChange (fun _ => some 0) c8LaterWorld ['u']).handlerCalls =
      [(['u'], 1000), (['u'], 4000)] :=
  ⟨c8_repeat_suppression.1 (fun _ => some 0) c8RecentWorld ['u'] rfl
      (by decide),
   (c8_repeat_suppression.2 (fun _ => some 0) c8LaterWorld ['u'] 0
      (by decide) rfl).2⟩

/-- C9, confirmed: the coordinator's operations preserve the DispatchState
invariant — at most one live timer, tracked by `state.urlChangeTimer`
(a signal cancels the existing timer before scheduling, firing clears the
handle), and `handleUrlChange` always overwrites `pendingUrl` with the
newest signal's URL while firing never changes it. -/
theorem c9_invariant_preserved :
    WInv initialWorld ∧
    (∀ (w : World) (url : List Char), WInv w →
        WInv (handleUrlChange w url)) ∧
    (∀ (fh : List Char → Option Nat) (w : World) (tm : Timer), WInv w →
        tm ∈ w.timers → WInv (fireTimer fh w tm)) ∧
    (∀ (w : World) (url : List Char),
        (handleUrlChange w url).st.pendingUrl = some url) ∧
    ∀ (fh : List Char → Option Nat) (w : World) (tm : Timer),
      (fireTimer fh w tm).st.pendingUrl = w.st.pendingUrl := by
  refine ⟨⟨by simp [initialWorld], by simp [initialWorld]⟩, ?_, ?_, ?_, ?_⟩
  · intro w url hw
    obtain ⟨hlen, htrack⟩ := hw
    cases hut : w.st.urlChangeTimer with
    | some tid =>
      have hall : w.timers.filter (fun t => !(t.id == tid)) = [] := by
        rw [List.filter_eq_nil_iff]
        intro t ht
        have := htrack t ht
        rw [hut, Option.some.injEq] at this
        simp [this]
      simp [handleUrlChange, hut, hall, WInv]
    | none =>
      have hnil : w.timers = [] := by
        cases hts : w.timers with
        | nil => rfl
        | cons t ts =>
          have := htrack t (by rw [hts]; exact List.mem_cons_self t ts)
          rw [hut] at this
          exact absurd this (by simp)
      simp [handleUrlChange, hut, hnil, WInv]
  · intro fh w tm hw hmem
    obtain ⟨hlen, htrack⟩ := hw
    have hall : w.timers.filter (fun t => !(t.id == tm.id)) = [] := by
      rw [List.filter_eq_nil_iff]
      intro t ht
      have h1 := htrack t ht
      have h2 := htrack tm hmem
      rw [h2, Option.some.injEq] at h1
      simp [h1]
    constructor
    · simp [fireTimer, processUrlChange_timers, hall]
    · intro t ht
      simp only [fireTimer, processUrlChange_timers, hall] at ht
      simp at ht
  · intro w url
    cases hut : w.st.urlChangeTimer <;> simp [handleUrlChange, hut]
  · intro fh w tm
    simp [fireTimer, processUrlChange_st_pendingUrl]

/-- Applying the C9 theorem: the invariant holds after a signal into the
initial world, and the signal's URL is the pending one. -/
theorem c9_invariant_preserved_witness :
    WInv (handleUrlChange initialWorld ['a']) ∧
    (handleUrlChange initialWorld ['a']).st.pendingUrl = some ['a'] :=
  ⟨c9_invariant_preserved.2.1 initialWorld ['a'] c9_invariant_preserved.1,
   c9_invariant_preserved.2.2.2.1 initialWorld ['a']⟩

/-- C7, confirmed: two raw signals inside one debounce window produce
exactly one matcher dispatch, for the second URL at the end of its window;
the first URL's timer is cancelled and no timer is left live. -/
theorem c7_burst_dispatches_last_only :
    ∀ (fh : List Char → Option Nat) (u1 u2 : List Char) (t1 t2 : Nat),
      t1 ≤ t2 → t2 < t1 + URL_PROCESS_DELAY →
      (runSignals fh initialWorld [(t1, u1), (t2, u2)]
            (t2 + URL_PROCESS_DELAY)).matcherCalls =
          [(u2, t2 + URL_PROCESS_DELAY)] ∧
        (runSignals fh initialWorld [(t1, u1), (t2, u2)]
            (t2 + URL_PROCESS_DELAY)).timers = [] := by
  intro fh u1 u2 t1 t2 h12 hwin
  have hd1 : decide (t1 + URL_PROCESS_DELAY ≤ t2) = false :=
    decide_eq_false (Nat.not_le.mpr hwin)
  have hd2 : decide (t2 + URL_PROCESS_DELAY ≤ t2 + URL_PROCESS_DELAY) =
      true := decide_eq_true (Nat.le_refl _)
  have hs : ¬(u2 = ([] : List Char) ∧
      t2 + URL_PROCESS_DELAY - 0 < URL_REPEAT_THRESHOLD) := by
    rintro ⟨-, hlt⟩
    rw [URL_PROCESS_DELAY, URL_REPEAT_THRESHOLD] at hlt
    omega
  simp only [runSignals, fireDue, initialWorld, List.filter_nil,
    List.foldl_nil, handleUrlChange, List.nil_append, List.filter_cons,
    hd1, hd2, Bool.false_eq_true, if_false, if_true, List.foldl_cons,
    fireTimer, processUrlChange, Option.getD_some, beq_self_eq_true,
    Bool.not_true, hs]
  cases fh u2 <;> simp

/-- Applying the C7 theorem to two signals 100 ms apart with the 2000 ms
delay: one dispatch, for the second URL, at 2100 ms. -/
theorem c7_burst_dispatches_last_only_witness :
    (runSignals (fun _ => none) initialWorld
          [(0, "u1".toList), (100, "u2".toList)] 2100).matcherCalls =
        [("u2".toList, 2100)] ∧
      (runSignals (fun _ => none) initialWorld
          [(0, "u1".toList), (100, "u2".toList)] 2100).timers = [] :=
  c7_burst_dispatches_last_only (fun _ => none) "u1".toList "u2".toList 0 100
    (by decide) (by decide)
